import Mathlib

/-!
Verification of the extractive fallback summarizer of the InstaNotes backend
(`summarizeExtractive` in `backend/server.js`).  The JavaScript code is embedded
shallowly: strings become `List Char`, the two sequential global regex
replacements of the normalization step become two recursive passes, the
regex split `(?<=[.!?])\s+` becomes a left-to-right scanner that splits at a
whitespace character whose predecessor is `.`, `!` or `?` and then consumes the
whole whitespace run, the word split `\s+` becomes the analogous scanner
without the look-behind, the frequency object becomes a function built by a
fold exactly as the `for`-loop builds it, and the stable `Array.prototype.sort`
(stable per the ECMAScript specification) becomes a stable insertion sort by
descending score.  The repository contains two versions of the function; they
are embedded as `V1.summarizeExtractive` and `V2.summarizeExtractive`, both as
instances of the common parametrized core `summarizeCore`, which they
instantiate with their respective stop-word lists (the second version's list
additionally contains "jij"), and the first additionally models the
JavaScript coercion `(inputText || '')` of `null`/`undefined` input.
-/

namespace InstaNotes

/-- Whitespace test of the ECMAScript `\s` character class (also the character
set removed by `String.prototype.trim`): tab through carriage return, space,
and the Unicode space separators plus BOM. -/
def isWS (c : Char) : Bool :=
  (9 ≤ c.toNat && c.toNat ≤ 13) || c.toNat = 32 || c.toNat = 160 ||
    c.toNat = 0x1680 || (0x2000 ≤ c.toNat && c.toNat ≤ 0x200A) ||
    c.toNat = 0x2028 || c.toNat = 0x2029 || c.toNat = 0x202F ||
    c.toNat = 0x205F || c.toNat = 0x3000 || c.toNat = 0xFEFF

/-- Sentence-terminating punctuation of the split regex: the class
written in the source as a period, an exclamation mark or a question mark. -/
def isPunct (c : Char) : Bool :=
  c.toNat = 46 || c.toNat = 33 || c.toNat = 63

/-- Characters kept by the replacement regex of the tokenizer: lowercase
ASCII letters, ASCII digits, the accented-Latin block U+00C0 - U+017F, and
whitespace; every other character is replaced by a space. -/
def keepChar (c : Char) : Bool :=
  (97 ≤ c.toNat && c.toNat ≤ 122) || (48 ≤ c.toNat && c.toNat ≤ 57) ||
    (0xC0 ≤ c.toNat && c.toNat ≤ 0x17F) || isWS c

/-- Model of `String.prototype.toLowerCase` on the character ranges relevant
to the tokenizer: ASCII, the Latin-1 uppercase range, and Latin Extended-A
(simple case mappings; U+0130 is mapped to the plain letter i, which yields
the same token as the two-character full lowercase mapping does after the
combining dot above is stripped by the replacement regex); identity
elsewhere. -/
def jsToLower (c : Char) : Char :=
  if 65 ≤ c.toNat && c.toNat ≤ 90 then Char.ofNat (c.toNat + 32)
  else if 0xC0 ≤ c.toNat && c.toNat ≤ 0xDE && c.toNat ≠ 0xD7 then
    Char.ofNat (c.toNat + 32)
  else if c.toNat = 0x130 then Char.ofNat 105
  else if 0x100 ≤ c.toNat && c.toNat ≤ 0x137 && c.toNat % 2 = 0 then
    Char.ofNat (c.toNat + 1)
  else if 0x139 ≤ c.toNat && c.toNat ≤ 0x148 && c.toNat % 2 = 1 then
    Char.ofNat (c.toNat + 1)
  else if 0x14A ≤ c.toNat && c.toNat ≤ 0x177 && c.toNat % 2 = 0 then
    Char.ofNat (c.toNat + 1)
  else if c.toNat = 0x178 then Char.ofNat 0xFF
  else if 0x179 ≤ c.toNat && c.toNat ≤ 0x17D && c.toNat % 2 = 1 then
    Char.ofNat (c.toNat + 1)
  else c

/-- The space character. -/
def sp : Char := Char.ofNat 32

/-- First normalization pass: the global replacement of every CR-LF pair by a
single space (`.replace` with the CR-LF pattern), scanning left to right. -/
def replCRLF : List Char → List Char
  | c :: d :: rest =>
    if c.toNat = 13 && d.toNat = 10 then sp :: replCRLF rest
    else c :: replCRLF (d :: rest)
  | [c] => [c]
  | [] => []

/-- Second normalization pass: the global replacement of every remaining
line feed by a single space. -/
def replLF (l : List Char) : List Char :=
  l.map fun c => if c.toNat = 10 then sp else c

/-- The normalization of the input document: CR-LF pairs and then bare line
feeds become single spaces. -/
def normalizeText (l : List Char) : List Char :=
  replLF (replCRLF l)

/-- Look-behind test of the sentence split: whether the most recently scanned
character (head of the reversed accumulator) is sentence-terminating
punctuation. -/
def headPunct (acc : List Char) : Bool :=
  match acc.head? with
  | some p => isPunct p
  | none => false

/-- Scanner for the split at the regex made of a look-behind for the
punctuation class followed by one or more whitespace characters: a split
happens at a whitespace character whose predecessor is `.`, `!` or `?`, and
the whole whitespace run is consumed (`skipping` is true while the run is
being consumed, mirroring the greedy one-or-more repetition). `acc` holds
the current piece in reverse. -/
def splitSentCore (skipping : Bool) (acc : List Char) :
    List Char → List (List Char)
  | [] => [acc.reverse]
  | c :: rest =>
    if skipping && isWS c then
      splitSentCore true acc rest
    else if isWS c && headPunct acc then
      acc.reverse :: splitSentCore true [] rest
    else
      splitSentCore false (c :: acc) rest

/-- The sentence split of a (normalized) text. -/
def rawSplit (l : List Char) : List (List Char) :=
  splitSentCore false [] l

/-- Model of `String.prototype.trim`: drop whitespace from both ends. -/
def trim (l : List Char) : List Char :=
  List.rdropWhile isWS (l.dropWhile isWS)

/-- The sentence list of a normalized text: split, trim each piece, and
discard empty pieces (`.filter(Boolean)`). -/
def sentencesOf (l : List Char) : List (List Char) :=
  ((rawSplit l).map trim).filter fun s => !s.isEmpty

/-- Scanner for the split at runs of whitespace (the `\s+` regex without
look-behind), used by the tokenizer; `skipping` is true while a whitespace
run is being consumed. -/
def splitWSCore (skipping : Bool) (acc : List Char) :
    List Char → List (List Char)
  | [] => [acc.reverse]
  | c :: rest =>
    if isWS c then
      if skipping then splitWSCore true acc rest
      else acc.reverse :: splitWSCore true [] rest
    else
      splitWSCore false (c :: acc) rest

/-- One character of the tokenizer's replacement step: characters outside the
kept class become spaces. -/
def stripChar (c : Char) : Char :=
  if keepChar c then c else sp

/-- The tokenizer: lowercase, replace every non-kept character by a space,
split on whitespace runs, and discard empty tokens. -/
def tokenize (l : List Char) : List (List Char) :=
  (splitWSCore false [] ((l.map jsToLower).map stripChar)).filter
    fun s => !s.isEmpty

/-- Stop-word list of the first version of `summarizeExtractive`. -/
def stopwords1 : List (List Char) :=
  (["de", "het", "een", "en", "van", "ik", "je", "u", "we", "dat", "die",
    "in", "op", "te", "is", "om", "aan", "voor", "met", "als", "zijn",
    "was", "werd", "bij", "door", "naar"]).map String.data

/-- Stop-word list of the second version of `summarizeExtractive`; it is the
first list with "jij" inserted after "we". -/
def stopwords2 : List (List Char) :=
  (["de", "het", "een", "en", "van", "ik", "je", "u", "we", "jij", "dat",
    "die", "in", "op", "te", "is", "om", "aan", "voor", "met", "als",
    "zijn", "was", "werd", "bij", "door", "naar"]).map String.data

/-- The word-frequency table, built exactly as the source loop builds it: the
empty object is the everywhere-zero lookup, and each non-stop-word token
bumps its own entry. -/
def buildFreq (stop : List (List Char)) (ws : List (List Char)) :
    List Char → Nat :=
  ws.foldl
    (fun m w =>
      if stop.contains w then m
      else fun x => if x = w then m x + 1 else m x)
    fun _ => 0

/-- The frequency table of a normalized text. -/
def freqOf (stop : List (List Char)) (text : List Char) : List Char → Nat :=
  buildFreq stop (tokenize text)

/-- The score of one sentence: fold over its tokens, adding the frequency of
a token when its table entry is present and non-zero (the truthiness test of
the source). -/
def sentScore (freq : List Char → Nat) (s : List Char) : Nat :=
  (tokenize s).foldl (fun sc w => if freq w ≠ 0 then sc + freq w else sc) 0

/-- The scored sentence list (sentence text paired with its score). -/
def scoresOf (stop : List (List Char)) (text : List Char) :
    List (List Char × Nat) :=
  (sentencesOf text).map fun s => (s, sentScore (freqOf stop text) s)

/-- Insertion into a descending-sorted list, placing the new element before
the first element whose score is less than or equal to its own; together with
`isortDesc` this realizes the stable descending sort of the source's
comparator on scores. -/
def insertDesc (x : List Char × Nat) :
    List (List Char × Nat) → List (List Char × Nat)
  | [] => [x]
  | y :: ys => if y.2 ≤ x.2 then x :: y :: ys else y :: insertDesc x ys

/-- Stable sort by descending score (the ECMAScript `sort` with comparator
subtracting scores is stable; every stable sort for that comparator produces
this output). -/
def isortDesc : List (List Char × Nat) → List (List Char × Nat)
  | [] => []
  | x :: xs => insertDesc x (isortDesc xs)

/-- The selected sentence texts: sort by descending score, keep the first
`k`, and project to the sentence text. -/
def topOf (stop : List (List Char)) (text : List Char) (k : Nat) :
    List (List Char) :=
  ((isortDesc (scoresOf stop text)).take k).map Prod.fst

/-- The order-preservation filter of the source: the original sentence list
filtered to the sentences contained in the selection. -/
def orderedOf (stop : List (List Char)) (text : List Char) (k : Nat) :
    List (List Char) :=
  (sentencesOf text).filter fun s => (topOf stop text k).contains s

/-- Model of `Array.prototype.join` with a single-space separator. -/
def sentJoin : List (List Char) → List Char
  | [] => []
  | [s] => s
  | s :: t :: rest => s ++ sp :: sentJoin (t :: rest)

/-- The common core of both versions of `summarizeExtractive`, parametrized
by the stop-word list: normalize, split into sentences, short-circuit when
the sentence count is at most `maxSentences`, otherwise score, select the
top `maxSentences`, filter the original list to the selection, truncate, and
join with single spaces. -/
def summarizeCore (stop : List (List Char)) (inputText : List Char)
    (maxSentences : Nat) : List Char :=
  if (sentencesOf (normalizeText inputText)).length ≤ maxSentences then
    sentJoin (sentencesOf (normalizeText inputText))
  else
    sentJoin ((orderedOf stop (normalizeText inputText) maxSentences).take
      maxSentences)

/-- Model of the JavaScript coercion `(inputText || '')`: `null` and
`undefined` (both modelled by `none`) and the empty string are falsy and
become the empty string; every other string is returned unchanged. -/
def jsOrEmpty : Option String → String
  | none => ""
  | some s => if s = "" then "" else s

/-- The non-whitespace content of a character list, used to state that the
sentence split drops or adds nothing but delimiting whitespace. -/
def filterNW (l : List Char) : List Char :=
  l.filter fun c => !isWS c

/-- A character list with no sentence boundary inside: nowhere is a
punctuation character immediately followed by a whitespace character. -/
def noPB (l : List Char) : Prop :=
  List.Chain' (fun a b => (isPunct a && isWS b) = false) l

/-- Whether a character list ends with sentence-terminating punctuation. -/
def endsPunct (l : List Char) : Bool :=
  l.getLast?.any isPunct

/-- A well-formed sentence as produced by the split-trim-filter pipeline:
non-empty, no whitespace at either end, and no sentence boundary inside. -/
def GoodSent (l : List Char) : Prop :=
  l ≠ [] ∧ (l.head?.all fun c => !isWS c) = true ∧
    (l.getLast?.all fun c => !isWS c) = true ∧ noPB l

/-- Comparator order realized by the sort of the source (descending score):
`a` may precede `b` when the score of `b` is at most the score of `a`. -/
def scoreGE (a b : List Char × Nat) : Prop :=
  b.2 ≤ a.2

/-- No split happens while the sentence scanner reads `s` coming from the
given preceding character: nowhere in the scan is a whitespace character
preceded by sentence-terminating punctuation. -/
def noSplitFrom : Option Char → List Char → Bool
  | _, [] => true
  | prev, c :: rest => !(prev.any isPunct && isWS c) && noSplitFrom (some c) rest

namespace V1

/-- The first version of `summarizeExtractive` in `backend/server.js`
(the one with the coercion of `null`/`undefined` input and without "jij" in
its stop-word list). -/
def summarizeExtractive (inputText : Option String) (maxSentences : Nat) :
    String :=
  String.mk (summarizeCore stopwords1 (jsOrEmpty inputText).data maxSentences)

end V1

namespace V2

/-- The second version of `summarizeExtractive` in `backend/server.js`
(the one whose stop-word list contains "jij" and which dereferences its
input directly, hence takes a genuine string). -/
def summarizeExtractive (inputText : String) (maxSentences : Nat) : String :=
  String.mk (summarizeCore stopwords2 inputText.data maxSentences)

end V2

/-! ### The frequency table and sentence scores -/

theorem headPunct_eq (acc : List Char) :
    headPunct acc = acc.head?.any isPunct := by
  cases acc <;> rfl

theorem buildFreq_foldl_apply (stop : List (List Char))
    (ws : List (List Char)) (m : List Char → Nat) (x : List Char) :
    (ws.foldl
      (fun m w =>
        if stop.contains w then m
        else fun y => if y = w then m y + 1 else m y) m) x
      = m x + (if stop.contains x then 0 else ws.count x) := by
  induction ws generalizing m with
  | nil => simp
  | cons w rest ih =>
    simp only [List.foldl_cons]
    rw [ih]
    by_cases hw : stop.contains w = true
    · rw [if_pos hw]
      by_cases hx : stop.contains x = true
      · rw [if_pos hx, if_pos hx]
      · have hxw : ¬x = w := fun h => hx (h ▸ hw)
        rw [if_neg hx, if_neg hx, List.count_cons]
        simp [Ne.symm hxw, hxw]
    · rw [if_neg hw]
      by_cases hxw : x = w
      · subst hxw
        have hm : ¬x ∈ stop := by
          intro hmem
          exact hw (by simpa using hmem)
        simp only [if_pos rfl, List.count_cons]
        simp [hm]
        omega
      · simp only [if_neg hxw, List.count_cons]
        simp [Ne.symm hxw, hxw]

theorem freqOf_apply (stop : List (List Char)) (text : List Char)
    (w : List Char) :
    freqOf stop text w
      = if stop.contains w then 0 else (tokenize text).count w := by
  unfold freqOf buildFreq
  rw [buildFreq_foldl_apply]
  exact Nat.zero_add _

theorem freqOf_eq (stop : List (List Char)) (text : List Char) :
    freqOf stop text
      = fun w => if stop.contains w then 0 else (tokenize text).count w :=
  funext fun w => freqOf_apply stop text w

theorem score_foldl_eq (freq : List Char → Nat) (ws : List (List Char))
    (a : Nat) :
    ws.foldl (fun sc w => if freq w ≠ 0 then sc + freq w else sc) a
      = a + (ws.map freq).sum := by
  induction ws generalizing a with
  | nil => simp
  | cons w rest ih =>
    simp only [List.foldl_cons, List.map_cons, List.sum_cons]
    rw [ih]
    by_cases h : freq w = 0
    · rw [if_neg (by simp [h]), h]
      omega
    · rw [if_pos h]
      omega

theorem sentScore_eq (freq : List Char → Nat) (s : List Char) :
    sentScore freq s = ((tokenize s).map freq).sum := by
  unfold sentScore
  rw [score_foldl_eq]
  simp

/-! ### Short-circuit and branch lemmas -/

theorem jsOrEmpty_some (s : String) : jsOrEmpty (some s) = s := by
  by_cases h0 : s = ""
  · simp [jsOrEmpty, h0]
  · simp [jsOrEmpty, h0]

theorem summarizeCore_of_le (stop : List (List Char)) (doc : List Char)
    (k : Nat) (h : (sentencesOf (normalizeText doc)).length ≤ k) :
    summarizeCore stop doc k = sentJoin (sentencesOf (normalizeText doc)) := by
  unfold summarizeCore
  rw [if_pos h]

theorem summarizeCore_of_lt (stop : List (List Char)) (doc : List Char)
    (k : Nat) (h : k < (sentencesOf (normalizeText doc)).length) :
    summarizeCore stop doc k
      = sentJoin ((orderedOf stop (normalizeText doc) k).take k) := by
  unfold summarizeCore
  rw [if_neg (Nat.not_le.mpr h)]

/-! ### Claim theorems: short documents, empty documents, null input,
sentence scores -/

/-- C1: for every document whose sentence count (after normalization,
segmentation, trimming and discarding of empty pieces) is at most
`maxSentences`, with `maxSentences ≥ 1`, the summarizer returns exactly
those sentences joined with single spaces in original order; the
quantification over the stop-word list shows the result is independent of
stop-words, and no frequency table enters the computation. -/
theorem c1_short_circuit (stop : List (List Char)) (doc : List Char)
    (k : Nat) (hk : 1 ≤ k)
    (h : (sentencesOf (normalizeText doc)).length ≤ k) :
    summarizeCore stop doc k = sentJoin (sentencesOf (normalizeText doc)) :=
  summarizeCore_of_le stop doc k h

/-- Witness for C1: the spec's concrete scenario B, a one-sentence document
with `maxSentences = 3`, returned unchanged. -/
theorem c1_short_circuit_witness :
    summarizeCore stopwords1 "Alleen één zin hier.".data 3
      = sentJoin (sentencesOf (normalizeText "Alleen één zin hier.".data)) :=
  c1_short_circuit stopwords1 "Alleen één zin hier.".data 3 (by decide)
    (by decide)

/-- C8: for any document that segments into zero sentences (in particular
the empty string and whitespace-only input), the first version of
`summarizeExtractive` returns the empty string for every
`maxSentences ≥ 1` (totality holds by construction: the embedding is a
total function). -/
theorem c8_empty_document (d : String) (k : Nat) (hk : 1 ≤ k)
    (h : sentencesOf (normalizeText d.data) = []) :
    V1.summarizeExtractive (some d) k = "" := by
  unfold V1.summarizeExtractive
  rw [jsOrEmpty_some,
    summarizeCore_of_le _ _ _ (by rw [h]; exact Nat.zero_le k), h]
  rfl

/-- Witness for C8: the empty string with `maxSentences = 3` gives the
empty string, and so does a whitespace-only document. -/
theorem c8_empty_document_witness :
    V1.summarizeExtractive (some "") 3 = ""
      ∧ V1.summarizeExtractive (some "  ") 3 = "" :=
  ⟨c8_empty_document "" 3 (by decide) (by decide),
    c8_empty_document "  " 3 (by decide) (by decide)⟩

/-- C10: the first version of `summarizeExtractive` coerces `null` and
`undefined` input (modelled by `none`) to the empty string via
`(inputText || '')` and returns the empty string, for every
`maxSentences ≥ 1`; in the embedding it is a total function, so no
exception is possible. -/
theorem c10_null_input (k : Nat) (hk : 1 ≤ k) :
    V1.summarizeExtractive none k = "" := by
  unfold V1.summarizeExtractive jsOrEmpty
  rw [summarizeCore_of_le]
  · rfl
  · exact Nat.le_trans (by decide) hk

/-- Witness for C10 at the default call-site value `maxSentences = 3`. -/
theorem c10_null_input_witness : V1.summarizeExtractive none 3 = "" :=
  c10_null_input 3 (by decide)

/-- C2: in the scoring branch (more sentences than `maxSentences ≥ 1`),
the score assigned to each sentence is the sum, over the tokens of that
sentence, of the whole-document frequency of the token, where the frequency
of a non-stop-word token is its number of occurrences in the entire
normalized document and stop-words (and hence tokens absent from the table)
contribute zero; a sentence with no scoring tokens thus gets score 0. -/
theorem c2_sentence_scores (doc : List Char) (k : Nat)
    (p : List Char × Nat) (hk : 1 ≤ k)
    (h : k < (sentencesOf (normalizeText doc)).length)
    (hp : p ∈ scoresOf stopwords1 (normalizeText doc)) :
    p.2 = ((tokenize p.1).map fun w =>
      if stopwords1.contains w then 0
      else (tokenize (normalizeText doc)).count w).sum := by
  unfold scoresOf at hp
  obtain ⟨s, hs, rfl⟩ := List.mem_map.mp hp
  show sentScore (freqOf stopwords1 (normalizeText doc)) s = _
  rw [sentScore_eq, freqOf_eq]

/-- Witness for C2: in the spec's concrete scenario A the first sentence
has score 2, the sum of the document frequencies of its two non-stop
tokens. -/
theorem c2_sentence_scores_witness :
    (("De kat slaapt.".data, 2) : List Char × Nat).2
      = ((tokenize ("De kat slaapt.".data, 2).1).map fun w =>
          if stopwords1.contains w then 0
          else (tokenize (normalizeText
            "De kat slaapt. De hond rent snel buiten. Een vogel zingt mooi in de boom.".data)).count w).sum :=
  c2_sentence_scores
    "De kat slaapt. De hond rent snel buiten. Een vogel zingt mooi in de boom.".data
    2 ("De kat slaapt.".data, 2) (by decide) (by decide) (by decide)

/-! ### The stable descending sort -/

theorem scoreGE_iff (a b : List Char × Nat) : scoreGE a b ↔ b.2 ≤ a.2 :=
  Iff.rfl

theorem insertDesc_perm (x : List Char × Nat)
    (l : List (List Char × Nat)) : (insertDesc x l).Perm (x :: l) := by
  induction l with
  | nil => exact List.Perm.refl _
  | cons y ys ih =>
    unfold insertDesc
    by_cases h : y.2 ≤ x.2
    · rw [if_pos h]
    · rw [if_neg h]
      exact (ih.cons y).trans (List.Perm.swap x y ys)

theorem isortDesc_perm (l : List (List Char × Nat)) :
    (isortDesc l).Perm l := by
  induction l with
  | nil => exact List.Perm.refl _
  | cons x xs ih =>
    rw [isortDesc]
    exact (insertDesc_perm x (isortDesc xs)).trans (ih.cons x)

theorem insertDesc_sorted (x : List Char × Nat)
    (l : List (List Char × Nat)) (h : List.Sorted scoreGE l) :
    List.Sorted scoreGE (insertDesc x l) := by
  induction l with
  | nil => simp [insertDesc, List.sorted_singleton]
  | cons y ys ih =>
    rw [List.sorted_cons] at h
    unfold insertDesc
    by_cases hc : y.2 ≤ x.2
    · rw [if_pos hc, List.sorted_cons]
      refine ⟨fun b hb => ?_, List.sorted_cons.mpr h⟩
      rcases List.mem_cons.mp hb with rfl | hb2
      · exact hc
      · exact Nat.le_trans (h.1 b hb2) hc
    · rw [if_neg hc, List.sorted_cons]
      refine ⟨fun b hb => ?_, ih h.2⟩
      rcases List.mem_cons.mp ((insertDesc_perm x ys).subset hb)
        with rfl | hb2
      · exact Nat.le_of_lt (Nat.lt_of_not_le hc)
      · exact h.1 b hb2

theorem isortDesc_sorted (l : List (List Char × Nat)) :
    List.Sorted scoreGE (isortDesc l) := by
  induction l with
  | nil => simp [isortDesc]
  | cons x xs ih =>
    rw [isortDesc]
    exact insertDesc_sorted x (isortDesc xs) ih

theorem filter_insertDesc_of_ne (x : List Char × Nat)
    (l : List (List Char × Nat)) (v : Nat) (hx : ¬x.2 = v) :
    (insertDesc x l).filter (fun e => e.2 == v)
      = l.filter fun e => e.2 == v := by
  induction l with
  | nil => simp [insertDesc, hx]
  | cons y ys ih =>
    unfold insertDesc
    by_cases hc : y.2 ≤ x.2
    · rw [if_pos hc]
      simp [List.filter_cons, hx]
    · rw [if_neg hc]
      simp [List.filter_cons, ih]

theorem filter_insertDesc_of_eq (x : List Char × Nat)
    (l : List (List Char × Nat)) (v : Nat) (hx : x.2 = v) :
    (insertDesc x l).filter (fun e => e.2 == v)
      = x :: l.filter fun e => e.2 == v := by
  induction l with
  | nil => simp [insertDesc, hx]
  | cons y ys ih =>
    unfold insertDesc
    by_cases hc : y.2 ≤ x.2
    · rw [if_pos hc]
      simp [List.filter_cons, hx]
    · rw [if_neg hc]
      have hy : ¬y.2 = v := by omega
      simp [List.filter_cons, hy, ih]

theorem isortDesc_filter (l : List (List Char × Nat)) (v : Nat) :
    (isortDesc l).filter (fun e => e.2 == v)
      = l.filter fun e => e.2 == v := by
  induction l with
  | nil => rfl
  | cons x xs ih =>
    rw [isortDesc]
    by_cases hx : x.2 = v
    · rw [filter_insertDesc_of_eq x (isortDesc xs) v hx, ih]
      simp [List.filter_cons, hx]
    · rw [filter_insertDesc_of_ne x (isortDesc xs) v hx, ih]
      simp [List.filter_cons, hx]

theorem insertDesc_of_le (x : List Char × Nat)
    (l : List (List Char × Nat)) (h : ∀ p ∈ l, p.2 ≤ x.2) :
    insertDesc x l = x :: l := by
  cases l with
  | nil => rfl
  | cons y ys =>
    unfold insertDesc
    rw [if_pos (h y (List.mem_cons_self y ys))]

theorem isortDesc_of_all_zero (l : List (List Char × Nat))
    (h : ∀ p ∈ l, p.2 = 0) : isortDesc l = l := by
  induction l with
  | nil => rfl
  | cons x xs ih =>
    rw [isortDesc, ih fun p hp => h p (List.mem_cons_of_mem x hp)]
    exact insertDesc_of_le x xs fun p hp => by
      rw [h p (List.mem_cons_of_mem x hp), h x (List.mem_cons_self x xs)]

/-! ### All-stop-word documents -/

theorem allstop_freq_zero (stop : List (List Char)) (text : List Char)
    (h : ∀ w ∈ tokenize text, w ∈ stop) :
    freqOf stop text = fun _ => 0 := by
  funext w
  rw [freqOf_apply]
  by_cases hw : stop.contains w = true
  · rw [if_pos hw]
  · rw [if_neg hw]
    refine List.count_eq_zero.mpr fun hmem => ?_
    exact hw (by simpa using h w hmem)

theorem scoresOf_map_fst (stop : List (List Char)) (text : List Char) :
    (scoresOf stop text).map Prod.fst = sentencesOf text := by
  unfold scoresOf
  rw [List.map_map]
  have hid : (Prod.fst ∘ fun s : List Char =>
      (s, sentScore (freqOf stop text) s)) = id :=
    funext fun s => rfl
  rw [hid, List.map_id]

theorem scoresOf_all_zero (stop : List (List Char)) (text : List Char)
    (h0 : freqOf stop text = fun _ => 0) :
    scoresOf stop text = (sentencesOf text).map fun s => (s, 0) := by
  unfold scoresOf
  rw [h0]
  simp [sentScore_eq]

theorem filter_append_all (p : List Char → Bool) (t d : List (List Char))
    (h : ∀ s ∈ t, p s = true) :
    (t ++ d).filter p = t ++ d.filter p := by
  rw [List.filter_append, List.filter_eq_self.mpr h]

theorem take_filter_contains (l : List (List Char)) (k : Nat)
    (hlen : k ≤ l.length) :
    (l.filter fun s => (l.take k).contains s).take k = l.take k := by
  have h1 : (l.take k ++ l.drop k).filter (fun s => (l.take k).contains s)
      = l.take k ++ (l.drop k).filter fun s => (l.take k).contains s :=
    filter_append_all _ _ _ fun s hs => by simpa using hs
  rw [List.take_append_drop] at h1
  rw [h1, List.take_left']
  rw [List.length_take]
  omega

/-- C5: in the scoring branch, selection is by descending score with ties
broken by stable input order: the sorted list the selection takes its prefix
from is a permutation of the scored sentences, is sorted by descending
score, and lists the entries of every fixed score value in exactly their
input order (stability); consequently, for a document all of whose tokens
are stop-words (only stop-words and punctuation), every sentence scores 0
and the output is the first `maxSentences` sentences in original order. -/
theorem c5_stable_selection (doc : List Char) (k : Nat) (hk : 1 ≤ k)
    (h : k < (sentencesOf (normalizeText doc)).length) :
    ((isortDesc (scoresOf stopwords1 (normalizeText doc))).Perm
        (scoresOf stopwords1 (normalizeText doc))
      ∧ List.Sorted scoreGE
          (isortDesc (scoresOf stopwords1 (normalizeText doc)))
      ∧ ∀ v : Nat,
          (isortDesc (scoresOf stopwords1 (normalizeText doc))).filter
              (fun e => e.2 == v)
            = (scoresOf stopwords1 (normalizeText doc)).filter
                fun e => e.2 == v)
    ∧ ((∀ w ∈ tokenize (normalizeText doc), w ∈ stopwords1) →
        summarizeCore stopwords1 doc k
          = sentJoin ((sentencesOf (normalizeText doc)).take k)) := by
  refine ⟨⟨isortDesc_perm _, isortDesc_sorted _, fun v => isortDesc_filter _ v⟩,
    fun hstop => ?_⟩
  rw [summarizeCore_of_lt _ _ _ h]
  have hfreq := allstop_freq_zero stopwords1 (normalizeText doc) hstop
  have hscores := scoresOf_all_zero stopwords1 (normalizeText doc) hfreq
  have hzero : ∀ p ∈ scoresOf stopwords1 (normalizeText doc), p.2 = 0 := by
    rw [hscores]
    intro p hp
    obtain ⟨s, _, rfl⟩ := List.mem_map.mp hp
    rfl
  have htop : topOf stopwords1 (normalizeText doc) k
      = (sentencesOf (normalizeText doc)).take k := by
    unfold topOf
    rw [isortDesc_of_all_zero _ hzero, List.map_take, scoresOf_map_fst]
  unfold orderedOf
  rw [htop, take_filter_contains _ _ (Nat.le_of_lt h)]

/-- Witness for C5: a document made only of stop-words and punctuation,
three sentences, `maxSentences = 1`: the output is the first sentence. -/
theorem c5_stable_selection_witness :
    summarizeCore stopwords1 "De het. En van. Ik je.".data 1
      = sentJoin ((sentencesOf
          (normalizeText "De het. En van. Ik je.".data)).take 1) :=
  (c5_stable_selection "De het. En van. Ik je.".data 1 (by decide)
    (by decide)).2 (by decide)

/-! ### The two versions of the summarizer (claim C9) -/

theorem stopwords2_contains (w : List Char) (hw : ¬w = "jij".data) :
    stopwords2.contains w = stopwords1.contains w := by
  have h1 : stopwords1.contains w = true ↔ w ∈ stopwords1 := List.elem_iff
  have h2 : stopwords2.contains w = true ↔ w ∈ stopwords2 := List.elem_iff
  have hsplit : stopwords2
      = stopwords1.take 9 ++ "jij".data :: stopwords1.drop 9 := by decide
  have hmem : w ∈ stopwords2 ↔ w ∈ stopwords1 := by
    rw [hsplit]
    conv_rhs => rw [← List.take_append_drop 9 stopwords1]
    simp only [List.mem_append, List.mem_cons]
    constructor
    · rintro (h | h | h)
      · exact Or.inl h
      · exact absurd h hw
      · exact Or.inr h
    · rintro (h | h)
      · exact Or.inl h
      · exact Or.inr (Or.inr h)
  by_cases hm : w ∈ stopwords1
  · rw [h1.mpr hm, h2.mpr (hmem.mpr hm)]
  · have e1 : stopwords1.contains w = false := by
      rcases Bool.eq_false_or_eq_true (stopwords1.contains w) with e | e
      · exact absurd (h1.mp e) hm
      · exact e
    have e2 : stopwords2.contains w = false := by
      rcases Bool.eq_false_or_eq_true (stopwords2.contains w) with e | e
      · exact absurd (hmem.mp (h2.mp e)) hm
      · exact e
    rw [e1, e2]

theorem freqOf_stopwords_eq (text : List Char)
    (h : "jij".data ∉ tokenize text) :
    freqOf stopwords1 text = freqOf stopwords2 text := by
  funext w
  rw [freqOf_apply, freqOf_apply]
  by_cases hw : w = "jij".data
  · subst hw
    rw [if_neg (by decide), if_pos (by decide),
      List.count_eq_zero.mpr h]
  · rw [stopwords2_contains w hw]

theorem summarizeCore_stopwords_eq (text : List Char) (k : Nat)
    (h : "jij".data ∉ tokenize (normalizeText text)) :
    summarizeCore stopwords1 text k = summarizeCore stopwords2 text k := by
  have hsc : scoresOf stopwords1 (normalizeText text)
      = scoresOf stopwords2 (normalizeText text) := by
    unfold scoresOf
    rw [freqOf_stopwords_eq _ h]
  unfold summarizeCore orderedOf topOf
  rw [hsc]

/-- C9 (corrected): the two versions of `summarizeExtractive` agree on
every string document whose normalized text contains no occurrence of the
token "jij" (the single token on which their stop-word lists differ), for
every `maxSentences ≥ 1`; they do not agree on all documents — see the
counterexample. -/
theorem c9_versions_agree (s : String) (k : Nat) (hk : 1 ≤ k)
    (h : "jij".data ∉ tokenize (normalizeText s.data)) :
    V1.summarizeExtractive (some s) k = V2.summarizeExtractive s k := by
  unfold V1.summarizeExtractive V2.summarizeExtractive
  rw [jsOrEmpty_some, summarizeCore_stopwords_eq s.data k h]

/-- Witness for C9: a jij-free document on which both versions produce the
same summary. -/
theorem c9_versions_agree_witness :
    V1.summarizeExtractive (some "Aa bb. Cc bb. Dd.") 1
      = V2.summarizeExtractive "Aa bb. Cc bb. Dd." 1 :=
  c9_versions_agree "Aa bb. Cc bb. Dd." 1 (by decide) (by decide)

/-- Counterexample for C9 as stated: on a document containing the token
"jij" the two versions differ ("jij" is a stop-word only for the second
version, so the first version scores the jij-heavy sentence highest while
the second selects another sentence). -/
theorem c9_counterexample :
    V1.summarizeExtractive (some "jij jij jij aa. bb bb. cc.") 1
      ≠ V2.summarizeExtractive "jij jij jij aa. bb bb. cc." 1 := by
  decide

/-! ### Non-destructive segmentation (claim C6) -/

theorem filterNW_dropWhile (l : List Char) :
    filterNW (l.dropWhile isWS) = filterNW l := by
  induction l with
  | nil => rfl
  | cons c rest ih =>
    rw [List.dropWhile_cons]
    by_cases h : isWS c = true
    · rw [if_pos h, ih]
      unfold filterNW
      rw [List.filter_cons]
      simp [h]
    · rw [if_neg h]

theorem filterNW_rdropWhile (l : List Char) :
    filterNW (List.rdropWhile isWS l) = filterNW l := by
  have h1 : filterNW (List.rdropWhile isWS l)
      = (filterNW (l.reverse.dropWhile isWS)).reverse := by
    rw [List.rdropWhile]
    unfold filterNW
    rw [List.filter_reverse]
  rw [h1, filterNW_dropWhile]
  unfold filterNW
  rw [List.filter_reverse, List.reverse_reverse]

theorem filterNW_trim (l : List Char) : filterNW (trim l) = filterNW l := by
  unfold trim
  rw [filterNW_rdropWhile, filterNW_dropWhile]

theorem splitSentCore_filterNW (l : List Char) (skipping : Bool)
    (acc : List Char) :
    ((splitSentCore skipping acc l).map filterNW).flatten
      = filterNW acc.reverse ++ filterNW l := by
  induction l generalizing skipping acc with
  | nil => simp [splitSentCore, filterNW]
  | cons c rest ih =>
    simp only [splitSentCore]
    by_cases h1 : (skipping && isWS c) = true
    · rw [if_pos h1, ih]
      have hc : isWS c = true := by
        simp only [Bool.and_eq_true] at h1
        exact h1.2
      unfold filterNW
      rw [List.filter_cons]
      simp [hc]
    · rw [if_neg h1]
      by_cases h2 : (isWS c && headPunct acc) = true
      · rw [if_pos h2]
        simp only [List.map_cons, List.flatten_cons]
        rw [ih]
        have hc : isWS c = true := by
          simp only [Bool.and_eq_true] at h2
          exact h2.1
        unfold filterNW
        rw [List.filter_cons]
        simp [hc]
      · rw [if_neg h2, ih, List.reverse_cons]
        unfold filterNW
        rw [List.filter_append, List.filter_cons, List.filter_cons]
        by_cases hc : isWS c = true <;> simp [hc]

theorem filterNW_sentJoin (ss : List (List Char)) :
    filterNW (sentJoin ss) = (ss.map filterNW).flatten := by
  induction ss with
  | nil => rfl
  | cons s rest ih =>
    cases rest with
    | nil => simp [sentJoin, filterNW]
    | cons t rest2 =>
      rw [sentJoin]
      unfold filterNW
      rw [List.filter_append, List.filter_cons]
      have hsp : (!isWS sp) = false := by decide
      rw [hsp]
      simp only [List.map_cons, List.flatten_cons]
      rw [show (List.filter (fun c => !isWS c) (sentJoin (t :: rest2)))
          = filterNW (sentJoin (t :: rest2)) from rfl, ih]
      unfold filterNW
      simp only [List.map_cons, List.flatten_cons]
      rfl

theorem flatten_trim_filter (raw : List (List Char)) :
    (((raw.map trim).filter fun s => !s.isEmpty).map filterNW).flatten
      = (raw.map filterNW).flatten := by
  induction raw with
  | nil => rfl
  | cons p rest ih =>
    simp only [List.map_cons, List.filter_cons]
    by_cases h : (trim p).isEmpty = true
    · rw [if_neg (by simp [h])]
      have hp : trim p = [] := List.isEmpty_iff.mp h
      have hnw : filterNW p = [] := by rw [← filterNW_trim p, hp]; rfl
      simp [ih, hnw]
    · rw [if_pos (by simp [h])]
      simp only [List.map_cons, List.flatten_cons]
      rw [ih, filterNW_trim]

/-- C6: for every input document, the segmentation step is non-destructive
up to delimiting whitespace: joining all sentences with single spaces
reproduces exactly the non-whitespace character content of the normalized
text, in order (nothing is dropped or added other than whitespace). -/
theorem c6_segmentation_nondestructive (doc : List Char) :
    filterNW (sentJoin (sentencesOf (normalizeText doc)))
      = filterNW (normalizeText doc) := by
  rw [filterNW_sentJoin]
  unfold sentencesOf
  rw [flatten_trim_filter]
  unfold rawSplit
  have h := splitSentCore_filterNW (normalizeText doc) false []
  simpa using h

/-! ### Well-formedness of the produced sentences -/

theorem isPunct_not_ws (c : Char) (h : isPunct c = true) : isWS c = false := by
  have h' : c.toNat = 46 ∨ c.toNat = 33 ∨ c.toNat = 63 := by
    by_cases h1 : c.toNat = 46
    · exact Or.inl h1
    · by_cases h2 : c.toNat = 33
      · exact Or.inr (Or.inl h2)
      · by_cases h3 : c.toNat = 63
        · exact Or.inr (Or.inr h3)
        · exfalso
          unfold isPunct at h
          rw [decide_eq_false h1, decide_eq_false h2, decide_eq_false h3] at h
          simp at h
  obtain h1 | h1 | h1 := h' <;> (unfold isWS; rw [h1]; rfl)

theorem splitSentCore_ne_nil (l : List Char) (skipping : Bool)
    (acc : List Char) : splitSentCore skipping acc l ≠ [] := by
  induction l generalizing skipping acc with
  | nil => simp [splitSentCore]
  | cons c rest ih =>
    simp only [splitSentCore]
    by_cases h1 : (skipping && isWS c) = true
    · rw [if_pos h1]
      exact ih true acc
    · rw [if_neg h1]
      by_cases h2 : (isWS c && headPunct acc) = true
      · rw [if_pos h2]
        simp
      · rw [if_neg h2]
        exact ih false (c :: acc)

theorem noPB_append_singleton (l : List Char) (c : Char) (hl : noPB l)
    (hc : (l.getLast?.any isPunct && isWS c) = false) :
    noPB (l ++ [c]) := by
  unfold noPB at hl ⊢
  rw [List.chain'_append]
  refine ⟨hl, List.chain'_singleton c, fun x hx y hy => ?_⟩
  have hyc : c = y := by simpa using hy
  subst hyc
  have hsome : l.getLast? = some x := hx
  rw [hsome] at hc
  simpa using hc

theorem splitSentCore_noPB (l : List Char) (skipping : Bool)
    (acc : List Char) (hacc : noPB acc.reverse) :
    ∀ p ∈ splitSentCore skipping acc l, noPB p := by
  induction l generalizing skipping acc with
  | nil =>
    intro p hp
    simp only [splitSentCore, List.mem_singleton] at hp
    subst hp
    exact hacc
  | cons c rest ih =>
    intro p hp
    simp only [splitSentCore] at hp
    by_cases h1 : (skipping && isWS c) = true
    · rw [if_pos h1] at hp
      exact ih true acc hacc p hp
    · rw [if_neg h1] at hp
      by_cases h2 : (isWS c && headPunct acc) = true
      · rw [if_pos h2] at hp
        rcases List.mem_cons.mp hp with rfl | hp2
        · exact hacc
        · exact ih true [] List.chain'_nil p hp2
      · rw [if_neg h2] at hp
        refine ih false (c :: acc) ?_ p hp
        rw [List.reverse_cons]
        refine noPB_append_singleton acc.reverse c hacc ?_
        rw [List.getLast?_reverse, ← headPunct_eq]
        revert h2
        cases headPunct acc <;> cases isWS c <;> simp

theorem splitSentCore_dropLast_endsPunct (l : List Char) (skipping : Bool)
    (acc : List Char) :
    ∀ p ∈ (splitSentCore skipping acc l).dropLast, endsPunct p = true := by
  induction l generalizing skipping acc with
  | nil =>
    intro p hp
    simp [splitSentCore] at hp
  | cons c rest ih =>
    intro p hp
    simp only [splitSentCore] at hp
    by_cases h1 : (skipping && isWS c) = true
    · rw [if_pos h1] at hp
      exact ih true acc p hp
    · rw [if_neg h1] at hp
      by_cases h2 : (isWS c && headPunct acc) = true
      · rw [if_pos h2] at hp
        obtain ⟨x, xs, hx⟩ :=
          List.exists_cons_of_ne_nil (splitSentCore_ne_nil rest true [])
        rw [hx, List.dropLast_cons₂] at hp
        rcases List.mem_cons.mp hp with rfl | hp2
        · unfold endsPunct
          rw [List.getLast?_reverse, ← headPunct_eq]
          simp only [Bool.and_eq_true] at h2
          exact h2.2
        · rw [← hx] at hp2
          exact ih true [] p hp2
      · rw [if_neg h2] at hp
        exact ih false (c :: acc) p hp

/-! ### Trimming preserves well-formedness -/

theorem trim_head_not_ws (l : List Char) (h : trim l ≠ []) :
    ((trim l).head?.all fun c => !isWS c) = true := by
  have hq : l.dropWhile isWS ≠ [] := by
    intro he
    apply h
    unfold trim
    rw [he]
    rfl
  obtain ⟨u, hu⟩ := List.rdropWhile_prefix isWS (l.dropWhile isWS)
  have hu' : trim l ++ u = l.dropWhile isWS := hu
  have hh : (trim l).head? = (l.dropWhile isWS).head? := by
    rw [← hu', List.head?_append, List.head?_eq_head h]
    rfl
  rw [hh, List.head?_eq_head hq]
  have := List.head_dropWhile_not isWS l hq
  simpa using this

theorem trim_getLast_not_ws (l : List Char) (h : trim l ≠ []) :
    ((trim l).getLast?.all fun c => !isWS c) = true := by
  have := List.rdropWhile_last_not isWS (l.dropWhile isWS) h
  rw [List.getLast?_eq_getLast _ h]
  simpa using this

theorem noPB_trim (l : List Char) (h : noPB l) : noPB (trim l) := by
  have h1 : trim l <+: l.dropWhile isWS := List.rdropWhile_prefix _ _
  have h2 : l.dropWhile isWS <:+ l := List.dropWhile_suffix _
  exact h.infix (h1.isInfix.trans h2.isInfix)

theorem trim_endsPunct (p : List Char) (h : endsPunct p = true) :
    endsPunct (trim p) = true := by
  unfold endsPunct at h
  cases hl : p.getLast? with
  | none =>
    rw [hl] at h
    simp at h
  | some a =>
    rw [hl] at h
    have ha : isPunct a = true := by simpa using h
    have haws : isWS a = false := isPunct_not_ws a ha
    have hmem : a ∈ p := List.mem_of_mem_getLast? (by rw [hl]; rfl)
    have hq : p.dropWhile isWS ≠ [] := by
      intro he
      have := List.dropWhile_eq_nil_iff.mp he a hmem
      rw [haws] at this
      exact Bool.false_ne_true this
    obtain ⟨u, hu⟩ := List.dropWhile_suffix (l := p) isWS
    have hpq : p.getLast? = (p.dropWhile isWS).getLast? := by
      conv_lhs => rw [← hu]
      rw [List.getLast?_append, List.getLast?_eq_getLast _ hq]
      rfl
    have hql : (p.dropWhile isWS).getLast? = some a := by
      rw [← hpq, hl]
    have hself : List.rdropWhile isWS (p.dropWhile isWS) = p.dropWhile isWS := by
      refine List.rdropWhile_eq_self_iff.mpr fun hne => ?_
      have : (p.dropWhile isWS).getLast hne = a := by
        have := List.getLast?_eq_getLast _ hne
        rw [hql] at this
        exact (Option.some.injEq _ _).mp this.symm
      rw [this, haws]
      simp
    unfold trim endsPunct
    rw [hself, hql]
    simpa using ha

/-! ### The sentence pipeline produces well-formed sentences -/

theorem sentencesOf_good (t : List Char) :
    ∀ s ∈ sentencesOf t, GoodSent s := by
  intro s hs
  unfold sentencesOf at hs
  rw [List.mem_filter] at hs
  obtain ⟨hmem, hne⟩ := hs
  obtain ⟨p, hp, rfl⟩ := List.mem_map.mp hmem
  have hne' : trim p ≠ [] := by simpa using hne
  exact ⟨hne', trim_head_not_ws p hne', trim_getLast_not_ws p hne',
    noPB_trim p (splitSentCore_noPB t false [] List.chain'_nil p hp)⟩

theorem dropLast_pred_sublist {P : List Char → Prop}
    {f X : List (List Char)} (h : f.Sublist X)
    (hX : ∀ s ∈ X.dropLast, P s) : ∀ s ∈ f.dropLast, P s := by
  induction h with
  | slnil =>
    intro s hs
    simp at hs
  | @cons l₁ l₂ a h ih =>
    refine ih fun s2 hs2 => hX s2 ?_
    cases l₂ with
    | nil => simp at hs2
    | cons b l₃ =>
      rw [List.dropLast_cons₂]
      exact List.mem_cons_of_mem a hs2
  | @cons₂ l₁ l₂ a h ih =>
    intro s hs
    cases hl1 : l₁ with
    | nil =>
      subst hl1
      simp at hs
    | cons b l₃ =>
      subst hl1
      rw [List.dropLast_cons₂] at hs
      have hl2ne : l₂ ≠ [] := by
        intro he
        subst he
        have hx := List.sublist_nil.mp h
        simp at hx
      obtain ⟨c, l₄, rfl⟩ := List.exists_cons_of_ne_nil hl2ne
      rcases List.mem_cons.mp hs with rfl | hs2
      · exact hX s (by
          rw [List.dropLast_cons₂]
          exact List.mem_cons_self _ _)
      · exact ih (fun s2 h2 => hX s2 (by
          rw [List.dropLast_cons₂]
          exact List.mem_cons_of_mem _ h2)) s hs2

theorem sentencesOf_dropLast_endsPunct (t : List Char) :
    ∀ s ∈ (sentencesOf t).dropLast, endsPunct s = true := by
  have hsub : (sentencesOf t).Sublist ((rawSplit t).map trim) :=
    List.filter_sublist _
  refine dropLast_pred_sublist hsub fun s hs => ?_
  rw [← List.map_dropLast] at hs
  obtain ⟨p, hp, rfl⟩ := List.mem_map.mp hs
  exact trim_endsPunct p (splitSentCore_dropLast_endsPunct t false [] p hp)

/-! ### Re-splitting a join of well-formed sentences -/

theorem noSplitFrom_of_noPB (c : Char) (rest : List Char)
    (h : noPB (c :: rest)) : noSplitFrom (some c) rest = true := by
  induction rest generalizing c with
  | nil => rfl
  | cons d rest2 ih =>
    rw [noSplitFrom]
    unfold noPB at h
    rw [List.chain'_cons] at h
    have h1 : (isPunct c && isWS d) = false := h.1
    have h2 := ih d h.2
    simp only [Option.any_some]
    rw [h1, h2]
    rfl

theorem noSplitFrom_of_good (prev : Option Char) (s : List Char)
    (hhead : (s.head?.all fun c => !isWS c) = true) (hpb : noPB s) :
    noSplitFrom prev s = true := by
  cases s with
  | nil => rfl
  | cons c rest =>
    rw [noSplitFrom]
    have hc : isWS c = false := by simpa using hhead
    rw [hc]
    simp [noSplitFrom_of_noPB c rest hpb]

theorem splitSentCore_scan (s : List Char) :
    ∀ (acc rest : List Char), noSplitFrom acc.head? s = true →
      splitSentCore false acc (s ++ rest)
        = splitSentCore false (s.reverse ++ acc) rest := by
  induction s with
  | nil =>
    intro acc rest _
    simp
  | cons c s2 ih =>
    intro acc rest h
    rw [noSplitFrom] at h
    simp only [Bool.and_eq_true, Bool.not_eq_true'] at h
    obtain ⟨h1, h2⟩ := h
    rw [List.cons_append]
    simp only [splitSentCore]
    rw [if_neg (by simp), if_neg (by
      rw [headPunct_eq]
      rcases Bool.eq_false_or_eq_true (isWS c) with hw | hw
      · simp only [Bool.and_eq_true]
        intro hcontra
        rw [hw] at h1
        rw [hcontra.2] at h1
        simp at h1
      · simp [hw])]
    rw [ih (c :: acc) rest (by simpa using h2), List.reverse_cons,
      List.append_assoc]
    rfl

theorem splitSentCore_skip_head (c : Char) (r : List Char)
    (hc : isWS c = false) :
    splitSentCore true [] (c :: r) = splitSentCore false [] (c :: r) := by
  simp [splitSentCore, hc, headPunct]

theorem sentJoin_cons_eq (t : List Char) (rest : List (List Char)) :
    ∃ tail, sentJoin (t :: rest) = t ++ tail := by
  cases rest with
  | nil => exact ⟨[], by simp [sentJoin]⟩
  | cons r rs => exact ⟨sp :: sentJoin (r :: rs), rfl⟩

theorem rawSplit_sentJoin (ss : List (List Char)) (hne : ss ≠ [])
    (hgood : ∀ s ∈ ss, GoodSent s)
    (hpunct : ∀ s ∈ ss.dropLast, endsPunct s = true) :
    splitSentCore false [] (sentJoin ss) = ss := by
  induction ss with
  | nil => exact absurd rfl hne
  | cons s rest ih =>
    have hgs := hgood s (List.mem_cons_self s rest)
    have hnsf : noSplitFrom (List.head? ([] : List Char)) s = true :=
      noSplitFrom_of_good _ s hgs.2.1 hgs.2.2.2
    cases rest with
    | nil =>
      show splitSentCore false [] (sentJoin [s]) = [s]
      have hj : sentJoin [s] = s ++ [] := by simp [sentJoin]
      rw [hj, splitSentCore_scan s [] [] hnsf]
      simp [splitSentCore]
    | cons t rest2 =>
      show splitSentCore false [] (s ++ sp :: sentJoin (t :: rest2))
        = s :: t :: rest2
      rw [splitSentCore_scan s [] _ hnsf]
      simp only [splitSentCore]
      have hws : isWS sp = true := by decide
      have hhp : headPunct (s.reverse ++ []) = true := by
        rw [List.append_nil, headPunct_eq, List.head?_reverse]
        exact hpunct s (by
          rw [List.dropLast_cons₂]
          exact List.mem_cons_self _ _)
      rw [if_neg (by simp), if_pos (by rw [hws, hhp]; rfl)]
      have hrec : splitSentCore true [] (sentJoin (t :: rest2))
          = t :: rest2 := by
        obtain ⟨tail, htail⟩ := sentJoin_cons_eq t rest2
        have hgt := hgood t (List.mem_cons_of_mem s (List.mem_cons_self t rest2))
        obtain ⟨c0, t2, ht⟩ := List.exists_cons_of_ne_nil hgt.1
        have hc0 : isWS c0 = false := by
          have := hgt.2.1
          rw [ht] at this
          simpa using this
        have hih := ih (by simp)
          (fun u hu => hgood u (List.mem_cons_of_mem s hu))
          (fun u hu => hpunct u (by
            rw [List.dropLast_cons₂]
            exact List.mem_cons_of_mem s hu))
        rw [htail, ht, List.cons_append, splitSentCore_skip_head c0 _ hc0,
          ← List.cons_append, ← ht, ← htail]
        exact hih
      rw [hrec]
      simp

theorem trim_eq_self_of_good (s : List Char) (h : GoodSent s) :
    trim s = s := by
  obtain ⟨hne, hhead, hlast, _⟩ := h
  unfold trim
  have h1 : s.dropWhile isWS = s := by
    cases s with
    | nil => rfl
    | cons c rest =>
      rw [List.dropWhile_cons, if_neg]
      simp only [List.head?_cons, Option.all_some] at hhead
      simpa using hhead
  rw [h1]
  refine List.rdropWhile_eq_self_iff.mpr fun hl => ?_
  rw [List.getLast?_eq_getLast _ hl] at hlast
  simpa using hlast

theorem sentencesOf_sentJoin (ss : List (List Char))
    (hgood : ∀ s ∈ ss, GoodSent s)
    (hpunct : ∀ s ∈ ss.dropLast, endsPunct s = true) :
    sentencesOf (sentJoin ss) = ss := by
  cases hss : ss with
  | nil => rfl
  | cons s rest =>
    subst hss
    unfold sentencesOf rawSplit
    rw [rawSplit_sentJoin (s :: rest) (by simp) hgood hpunct]
    have hmap : (s :: rest).map trim = s :: rest := by
      have h2 := List.map_congr_left
        (fun u hu => trim_eq_self_of_good u (hgood u hu))
      rw [h2]
      simp
    rw [hmap]
    refine List.filter_eq_self.mpr fun a ha => ?_
    have := (hgood a ha).1
    simpa [List.isEmpty_iff] using this

/-! ### Cardinality of the selection -/

theorem topOf_length (stop : List (List Char)) (text : List Char) (k : Nat)
    (h : k ≤ (sentencesOf text).length) : (topOf stop text k).length = k := by
  unfold topOf
  rw [List.length_map, List.length_take, (isortDesc_perm _).length_eq]
  unfold scoresOf
  rw [List.length_map]
  omega

theorem topOf_subperm (stop : List (List Char)) (text : List Char)
    (k : Nat) : (topOf stop text k).Subperm (sentencesOf text) := by
  unfold topOf
  have h1 : (((isortDesc (scoresOf stop text)).take k).map Prod.fst).Sublist
      ((isortDesc (scoresOf stop text)).map Prod.fst) :=
    (List.take_sublist _ _).map _
  have h2 : ((isortDesc (scoresOf stop text)).map Prod.fst).Perm
      (sentencesOf text) := by
    have := (isortDesc_perm (scoresOf stop text)).map Prod.fst
    rwa [scoresOf_map_fst] at this
  exact h1.subperm.trans h2.subperm

theorem orderedOf_length_ge (stop : List (List Char)) (text : List Char)
    (k : Nat) (h : k ≤ (sentencesOf text).length) :
    k ≤ (orderedOf stop text k).length := by
  have hfil : (topOf stop text k).filter
      (fun s => (topOf stop text k).contains s) = topOf stop text k :=
    List.filter_eq_self.mpr fun a ha => List.elem_iff.mpr ha
  have hsp := (topOf_subperm stop text k).filter
    fun s => (topOf stop text k).contains s
  rw [hfil] at hsp
  have hlen := hsp.length_le
  rw [topOf_length stop text k h] at hlen
  exact hlen

theorem orderedOf_length_eq (stop : List (List Char)) (text : List Char)
    (k : Nat) (hN : (sentencesOf text).Nodup)
    (h : k ≤ (sentencesOf text).length) :
    (orderedOf stop text k).length = k := by
  have hperm : ((isortDesc (scoresOf stop text)).map Prod.fst).Perm
      (sentencesOf text) := by
    have := (isortDesc_perm (scoresOf stop text)).map Prod.fst
    rwa [scoresOf_map_fst] at this
  have htopN : (topOf stop text k).Nodup :=
    List.Nodup.sublist ((List.take_sublist _ _).map _)
      (hperm.nodup_iff.mpr hN)
  have hordN : (orderedOf stop text k).Nodup := hN.filter _
  have hperm2 : (orderedOf stop text k).Perm (topOf stop text k) := by
    rw [List.perm_ext_iff_of_nodup hordN htopN]
    intro a
    unfold orderedOf
    rw [List.mem_filter]
    constructor
    · rintro ⟨_, hc⟩
      exact List.elem_iff.mp hc
    · intro ha
      exact ⟨(topOf_subperm stop text k).subset ha, List.elem_iff.mpr ha⟩
  rw [hperm2.length_eq, topOf_length stop text k h]

theorem selected_sublist (stop : List (List Char)) (text : List Char)
    (k : Nat) :
    ((orderedOf stop text k).take k).Sublist (sentencesOf text) :=
  (List.take_sublist _ _).trans (List.filter_sublist _)

theorem sentencesOf_selected (stop : List (List Char)) (text : List Char)
    (k : Nat) :
    sentencesOf (sentJoin ((orderedOf stop text k).take k))
      = (orderedOf stop text k).take k := by
  refine sentencesOf_sentJoin _
    (fun s hs => sentencesOf_good text s ((selected_sublist stop text k).subset hs))
    (dropLast_pred_sublist (selected_sublist stop text k)
      (sentencesOf_dropLast_endsPunct text))

/-! ### Claim theorems: order preservation, output cardinality,
duplicate-text hazard -/

/-- C3: for every document with pairwise distinct sentence texts and more
sentences than `maxSentences ≥ 1`, the output equals the original sentence
list filtered down to the selected set, truncated to `maxSentences` and
space-joined, and the sentences of the output occur as a sublist of the
original sentence list, hence in original document order (never score
order). -/
theorem c3_order_preservation (doc : List Char) (k : Nat) (hk : 1 ≤ k)
    (h : k < (sentencesOf (normalizeText doc)).length)
    (hN : (sentencesOf (normalizeText doc)).Nodup) :
    summarizeCore stopwords1 doc k
        = sentJoin (((sentencesOf (normalizeText doc)).filter fun s =>
            (topOf stopwords1 (normalizeText doc) k).contains s).take k)
      ∧ ((orderedOf stopwords1 (normalizeText doc) k).take k).Sublist
          (sentencesOf (normalizeText doc)) :=
  ⟨summarizeCore_of_lt _ _ _ h, selected_sublist _ _ _⟩

/-- Witness for C3 at the spec's concrete scenario A (three distinct
sentences, `maxSentences = 2`). -/
theorem c3_order_preservation_witness :
    summarizeCore stopwords1
        "De kat slaapt. De hond rent snel buiten. Een vogel zingt mooi in de boom.".data
        2
      = sentJoin (((sentencesOf (normalizeText
          "De kat slaapt. De hond rent snel buiten. Een vogel zingt mooi in de boom.".data)).filter
            fun s => (topOf stopwords1 (normalizeText
              "De kat slaapt. De hond rent snel buiten. Een vogel zingt mooi in de boom.".data)
              2).contains s).take 2) :=
  (c3_order_preservation
    "De kat slaapt. De hond rent snel buiten. Een vogel zingt mooi in de boom.".data
    2 (by decide) (by decide) (by decide)).1

/-- C4: for every document with more sentences than `maxSentences ≥ 1`,
re-splitting the output by the same sentence boundary rule yields at most
`maxSentences` sentences, and exactly `maxSentences` when the document's
sentence texts are pairwise distinct. -/
theorem c4_output_cardinality (doc : List Char) (k : Nat) (hk : 1 ≤ k)
    (h : k < (sentencesOf (normalizeText doc)).length) :
    (sentencesOf (summarizeCore stopwords1 doc k)).length ≤ k
      ∧ ((sentencesOf (normalizeText doc)).Nodup →
          (sentencesOf (summarizeCore stopwords1 doc k)).length = k) := by
  have heq : sentencesOf (summarizeCore stopwords1 doc k)
      = (orderedOf stopwords1 (normalizeText doc) k).take k := by
    rw [summarizeCore_of_lt _ _ _ h]
    exact sentencesOf_selected stopwords1 (normalizeText doc) k
  rw [heq, List.length_take]
  constructor
  · exact Nat.min_le_left _ _
  · intro hN
    rw [orderedOf_length_eq stopwords1 (normalizeText doc) k hN
      (Nat.le_of_lt h)]
    exact Nat.min_self k

/-- Witness for C4 at the spec's concrete scenario A: the output has
exactly 2 sentences. -/
theorem c4_output_cardinality_witness :
    (sentencesOf (summarizeCore stopwords1
        "De kat slaapt. De hond rent snel buiten. Een vogel zingt mooi in de boom.".data
        2)).length ≤ 2
      ∧ ((sentencesOf (normalizeText
          "De kat slaapt. De hond rent snel buiten. Een vogel zingt mooi in de boom.".data)).Nodup →
          (sentencesOf (summarizeCore stopwords1
            "De kat slaapt. De hond rent snel buiten. Een vogel zingt mooi in de boom.".data
            2)).length = 2) :=
  c4_output_cardinality
    "De kat slaapt. De hond rent snel buiten. Een vogel zingt mooi in de boom.".data
    2 (by decide) (by decide)

/-- C7 (corrected): with duplicate sentence text the text-equality filter
can select more entries than `maxSentences` (witnessed concretely by the
third conjunct), and the final truncation silently cuts the result to
`maxSentences`; however the filter can never select fewer than
`maxSentences` entries (first conjunct) — the spec's "or fewer" direction
is impossible, see the counterexample. -/
theorem c7_duplicate_hazard (doc : List Char) (k : Nat) (hk : 1 ≤ k)
    (h : k < (sentencesOf (normalizeText doc)).length) :
    k ≤ (orderedOf stopwords1 (normalizeText doc) k).length
      ∧ summarizeCore stopwords1 doc k
          = sentJoin ((orderedOf stopwords1 (normalizeText doc) k).take k)
      ∧ (orderedOf stopwords1 (normalizeText "Aa. Aa.".data) 1).length = 2 :=
  ⟨orderedOf_length_ge stopwords1 (normalizeText doc) k (Nat.le_of_lt h),
    summarizeCore_of_lt _ _ _ h, by decide⟩

/-- Witness for C7 at the duplicate-sentence document itself
(two copies of one sentence, `maxSentences = 1`): the filter selects 2
entries, more than requested, and truncation cuts to 1. -/
theorem c7_duplicate_hazard_witness :
    1 ≤ (orderedOf stopwords1 (normalizeText "Aa. Aa.".data) 1).length
      ∧ summarizeCore stopwords1 "Aa. Aa.".data 1
          = sentJoin ((orderedOf stopwords1 (normalizeText "Aa. Aa.".data)
              1).take 1)
      ∧ (orderedOf stopwords1 (normalizeText "Aa. Aa.".data) 1).length = 2 :=
  c7_duplicate_hazard "Aa. Aa.".data 1 (by decide) (by decide)

/-- Counterexample for C7 as stated: the claim that for some input the
filter selects fewer entries than `maxSentences` is false — whenever there
are more sentences than `maxSentences` (with duplicate text present, as the
claim supposes), the filter always selects at least `maxSentences`
entries, since every selected entry's text matches at least its own
original position. -/
theorem c7_counterexample :
    ¬∃ (doc : List Char) (k : Nat), 1 ≤ k
        ∧ k < (sentencesOf (normalizeText doc)).length
        ∧ ¬(sentencesOf (normalizeText doc)).Nodup
        ∧ (orderedOf stopwords1 (normalizeText doc) k).length < k := by
  rintro ⟨doc, k, hk, hlen, _, hlt⟩
  have := orderedOf_length_ge stopwords1 (normalizeText doc) k
    (Nat.le_of_lt hlen)
  omega

end InstaNotes
